import Mathlib

/-!
Verification of the TSCoDe fallback numerical routines and the conformational
density class against their specification.

The Python sources are shallowly embedded:

* coordinates handed to `compenetration_check` are triples of real numbers
  (floating point is idealised as exact real arithmetic);
* `rmsd` values produced by the external `kabsch_rmsd` library call are kept
  abstract: `prune_conformers` is parameterised over the metric function and,
  since every floating point number is a rational, metric values are taken
  in `ℚ` so that the pruning pipeline stays computable;
* Python exceptions (an out-of-range list index, `min()` of an empty
  sequence, a `numpy` dimension mismatch) are `Option.none` results;
* Python list slices clamp at the ends exactly as `List.take` / `List.drop`.
-/

namespace TSCoDe

/-- A 3-vector of reals, the embedding of one row of a coordinate array. -/
abbrev Pt : Type := ℝ × ℝ × ℝ

/-- Componentwise difference `v1 - v2` of two coordinate rows. -/
def vsub (a b : Pt) : Pt := (a.1 - b.1, a.2.1 - b.2.1, a.2.2 - b.2.2)

/-- `norm_of` from `_fallback.py`: `sqrt (v[0]*v[0] + v[1]*v[1] + v[2]*v[2])`. -/
noncomputable def norm_of (v : Pt) : ℝ :=
Real.sqrt (v.1 * v.1 + v.2.1 * v.2.1 + v.2.2 * v.2.2)

/-- All ordered pairs drawn from two fragments, in the nested-loop order of
`compenetration_check`. -/
def fragPairs (m1 m2 : List Pt) : List (Pt × Pt) :=
m1.flatMap (fun v1 => m2.map (fun v2 => (v1, v2)))

open Classical in
/-- One inter-fragment clash-counting loop of `compenetration_check`: walks the
pair list carrying the running `clashes` counter, incrementing on each pair at
distance strictly below `thresh` and returning `none` (the Python
`return False`) as soon as the counter exceeds `max_clashes`. -/
noncomputable def clashLoop (thresh : ℝ) (max_clashes : ℕ) :
    List (Pt × Pt) → ℕ → Option ℕ
  | [], c => some c
  | p :: ps, c =>
      let c' := if norm_of (vsub p.1 p.2) < thresh then c + 1 else c
      if max_clashes < c' then none else clashLoop thresh max_clashes ps c'

/-- `compenetration_check` from `_fallback.py`.  `ids` holds the fragment atom
counts; the `len(ids) == 2` branch splits `coords` at `ids[0]`, every other
length takes the three-fragment branch, which reads `ids[0]` and `ids[1]`
(an out-of-range read — `ids` of length 0 or 1 — is `none`, the Python
`IndexError`).  The result `some true` / `some false` is the Python
`True` / `False`. -/
noncomputable def compenetration_check (coords : List Pt) (ids : List ℕ)
    (thresh : ℝ) (max_clashes : ℕ) : Option Bool :=
  if ids.length = 2 then
    match ids.get? 0 with
    | none => none
    | some i0 =>
        let m1 := coords.take i0
        let m2 := coords.drop i0
        match clashLoop thresh max_clashes (fragPairs m1 m2) 0 with
        | none => some false
        | some _ => some true
  else
    match ids.get? 0, ids.get? 1 with
    | some i0, some i1 =>
        let m1 := coords.take i0
        let m2 := (coords.drop i0).take i1
        let m3 := coords.drop (i0 + i1)
        match clashLoop thresh max_clashes (fragPairs m1 m2) 0 with
        | none => some false
        | some c1 =>
            match clashLoop thresh max_clashes (fragPairs m2 m3) c1 with
            | none => some false
            | some c2 =>
                match clashLoop thresh max_clashes (fragPairs m3 m1) c2 with
                | none => some false
                | some _ => some true
    | _, _ => none

open Classical in
/-- The number of pairs in `ps` at distance strictly below `thresh`. -/
noncomputable def clashCount (thresh : ℝ) (ps : List (Pt × Pt)) : ℕ :=
ps.countP (fun p => decide (norm_of (vsub p.1 p.2) < thresh))

open Classical in
/-- The total number of inter-fragment atom pairs of `coords`, split into two
or three fragments by `ids` exactly as `compenetration_check` splits it, whose
Euclidean distance is strictly below `thresh`. -/
noncomputable def interCount (coords : List Pt) (ids : List ℕ) (thresh : ℝ) : ℕ :=
  if ids.length = 2 then
    clashCount thresh (fragPairs (coords.take (ids.getD 0 0)) (coords.drop (ids.getD 0 0)))
  else
    let i0 := ids.getD 0 0
    let i1 := ids.getD 1 0
    let m1 := coords.take i0
    let m2 := (coords.drop i0).take i1
    let m3 := coords.drop (i0 + i1)
    clashCount thresh (fragPairs m1 m2) + clashCount thresh (fragPairs m2 m3) +
      clashCount thresh (fragPairs m3 m1)

/-- The early-exit counting loop is equivalent to a plain count: starting from
a counter `c ≤ mc` it succeeds exactly when the final count stays within
`mc`, and then returns that count. -/
theorem clashLoop_eq (thresh : ℝ) (mc : ℕ) :
    ∀ (ps : List (Pt × Pt)) (c : ℕ), c ≤ mc →
      clashLoop thresh mc ps c =
        if c + clashCount thresh ps ≤ mc then some (c + clashCount thresh ps)
        else none := by
  intro ps
  induction ps with
  | nil => intro c hc; simp [clashLoop, clashCount, hc]
  | cons p ps ih =>
      intro c hc
      rw [clashLoop]
      by_cases hb : norm_of (vsub p.1 p.2) < thresh
      · have hcnt : clashCount thresh (p :: ps) = clashCount thresh ps + 1 := by
          simp [clashCount, List.countP_cons, hb]
        simp only [hb, if_true]
        rw [hcnt]
        rcases Nat.lt_or_ge c mc with hlt | hge
        · rw [if_neg (by omega), ih (c + 1) (by omega)]
          by_cases h2 : c + 1 + clashCount thresh ps ≤ mc
          · rw [if_pos h2, if_pos (by omega)]
            congr 1
            omega
          · rw [if_neg h2, if_neg (by omega)]
        · have hce : c = mc := le_antisymm hc hge
          rw [if_pos (by omega), if_neg (by omega)]
      · have hcnt : clashCount thresh (p :: ps) = clashCount thresh ps := by
          simp [clashCount, List.countP_cons, hb]
        simp only [hb, if_false]
        rw [hcnt, if_neg (by omega), ih c hc]

/-- C2: with two or three fragments, `compenetration_check` accepts exactly
when the number of inter-fragment pairs at distance strictly below the
threshold is at most `max_clashes`. -/
theorem compenetration_check_iff (coords : List Pt) (ids : List ℕ)
    (thresh : ℝ) (mc : ℕ) (h : ids.length = 2 ∨ ids.length = 3) :
    compenetration_check coords ids thresh mc = some true ↔
      interCount coords ids thresh ≤ mc := by
  rcases h with h2 | h3
  · obtain ⟨a, b, rfl⟩ := List.length_eq_two.mp h2
    rw [compenetration_check, if_pos (show ([a, b] : List ℕ).length = 2 from rfl),
      interCount, if_pos (show ([a, b] : List ℕ).length = 2 from rfl)]
    simp only [List.get?_cons_zero, List.getD_cons_zero]
    cases h1 : clashLoop thresh mc (fragPairs (coords.take a) (coords.drop a)) 0 with
    | none =>
        have heq := clashLoop_eq thresh mc
          (fragPairs (coords.take a) (coords.drop a)) 0 (Nat.zero_le mc)
        rw [h1] at heq
        by_cases hle : 0 + clashCount thresh (fragPairs (coords.take a) (coords.drop a)) ≤ mc
        · rw [if_pos hle] at heq; exact absurd heq (by simp)
        · constructor
          · intro hh; simp at hh
          · intro hh; omega
    | some c1 =>
        have heq := clashLoop_eq thresh mc
          (fragPairs (coords.take a) (coords.drop a)) 0 (Nat.zero_le mc)
        rw [h1] at heq
        by_cases hle : 0 + clashCount thresh (fragPairs (coords.take a) (coords.drop a)) ≤ mc
        · simp only [eq_self_iff_true, true_iff]
          omega
        · rw [if_neg hle] at heq; exact absurd heq (by simp)
  · obtain ⟨a, b, c, rfl⟩ := List.length_eq_three.mp h3
    rw [compenetration_check, if_neg (by simp), interCount, if_neg (by simp)]
    simp only [List.get?_cons_zero, List.get?_cons_succ, List.getD_cons_zero,
      List.getD_cons_succ]
    set p12 := fragPairs (coords.take a) ((coords.drop a).take b) with hp12
    set p23 := fragPairs ((coords.drop a).take b) (coords.drop (a + b)) with hp23
    set p31 := fragPairs (coords.drop (a + b)) (coords.take a) with hp31
    cases h1 : clashLoop thresh mc p12 0 with
    | none =>
        have heq := clashLoop_eq thresh mc p12 0 (Nat.zero_le mc)
        rw [h1] at heq
        by_cases hle : 0 + clashCount thresh p12 ≤ mc
        · rw [if_pos hle] at heq; exact absurd heq (by simp)
        · constructor
          · intro hh; simp at hh
          · intro hh; omega
    | some c1 =>
        have heq := clashLoop_eq thresh mc p12 0 (Nat.zero_le mc)
        rw [h1] at heq
        by_cases hle : 0 + clashCount thresh p12 ≤ mc
        · rw [if_pos hle] at heq
          have hc1 : c1 = 0 + clashCount thresh p12 := by
            simpa using heq
          dsimp only
          cases h2 : clashLoop thresh mc p23 c1 with
          | none =>
              have heq2 := clashLoop_eq thresh mc p23 c1 (by omega)
              rw [h2] at heq2
              by_cases hle2 : c1 + clashCount thresh p23 ≤ mc
              · rw [if_pos hle2] at heq2; exact absurd heq2 (by simp)
              · constructor
                · intro hh; simp at hh
                · intro hh; omega
          | some c2 =>
              have heq2 := clashLoop_eq thresh mc p23 c1 (by omega)
              rw [h2] at heq2
              by_cases hle2 : c1 + clashCount thresh p23 ≤ mc
              · rw [if_pos hle2] at heq2
                have hc2 : c2 = c1 + clashCount thresh p23 := by
                  simpa using heq2
                dsimp only
                cases h3 : clashLoop thresh mc p31 c2 with
                | none =>
                    have heq3 := clashLoop_eq thresh mc p31 c2 (by omega)
                    rw [h3] at heq3
                    by_cases hle3 : c2 + clashCount thresh p31 ≤ mc
                    · rw [if_pos hle3] at heq3; exact absurd heq3 (by simp)
                    · constructor
                      · intro hh; simp at hh
                      · intro hh; omega
                | some c3 =>
                    have heq3 := clashLoop_eq thresh mc p31 c2 (by omega)
                    rw [h3] at heq3
                    by_cases hle3 : c2 + clashCount thresh p31 ≤ mc
                    · simp only [eq_self_iff_true, true_iff]
                      omega
                    · rw [if_neg hle3] at heq3; exact absurd heq3 (by simp)
              · rw [if_neg hle2] at heq2; exact absurd heq2 (by simp)
        · rw [if_neg hle] at heq; exact absurd heq (by simp)

/-- Witness for C2 at a concrete two-fragment input. -/
theorem compenetration_check_iff_witness :
    (([1, 1] : List ℕ).length = 2 ∨ ([1, 1] : List ℕ).length = 3) ∧
      (compenetration_check [((0 : ℝ), 0, 0), ((0 : ℝ), 0, 0)] [1, 1] 1 0 =
          some true ↔
        interCount [((0 : ℝ), 0, 0), ((0 : ℝ), 0, 0)] [1, 1] 1 ≤ 0) :=
  ⟨Or.inl rfl, compenetration_check_iff _ _ _ _ (Or.inl rfl)⟩

/-- C4 counterexample: a fragment-boundary list of length 4 — neither 2 nor
3 — is not signalled as invalid input: `compenetration_check` silently takes
the three-fragment branch and computes a verdict. -/
theorem compenetration_check_len4_counterexample :
    compenetration_check [((0 : ℝ), 0, 0), ((0 : ℝ), 0, 0)] [1, 1, 1, 1]
      (3 / 2) 2 = some true := by
  have hz : norm_of (vsub (0 : Pt) (0 : Pt)) = 0 := by
    simp [norm_of, vsub]
  rw [compenetration_check, if_neg (by simp)]
  simp only [List.get?_cons_zero, List.get?_cons_succ]
  norm_num [fragPairs, clashLoop, hz]

/-- C4 amended: `compenetration_check` raises an index error (surfaced as
`none`) only for boundary lists of length 0 or 1; every list of length at
least 2 — including lengths 4 and above — silently yields a verdict. -/
theorem compenetration_check_arity (coords : List Pt) (ids : List ℕ)
    (thresh : ℝ) (mc : ℕ) :
    (ids.length ≤ 1 → compenetration_check coords ids thresh mc = none) ∧
      (2 ≤ ids.length →
        ∃ b, compenetration_check coords ids thresh mc = some b) := by
  constructor
  · intro hlen
    match ids, hlen with
    | [], _ => rfl
    | [a], _ => rfl
  · intro hlen
    rw [compenetration_check]
    by_cases h2 : ids.length = 2
    · rw [if_pos h2]
      obtain ⟨a, b, rfl⟩ := List.length_eq_two.mp h2
      simp only [List.get?_cons_zero]
      cases clashLoop thresh mc
          (fragPairs (coords.take a) (coords.drop a)) 0 with
      | none => exact ⟨false, rfl⟩
      | some c1 => exact ⟨true, rfl⟩
    · rw [if_neg h2]
      have hne : ids ≠ [] := by
        intro h; rw [h] at hlen; simp at hlen
      obtain ⟨a, t, rfl⟩ := List.exists_cons_of_ne_nil hne
      have hne2 : t ≠ [] := by
        intro h; subst h; simp at hlen
      obtain ⟨b, t2, rfl⟩ := List.exists_cons_of_ne_nil hne2
      simp only [List.get?_cons_zero, List.get?_cons_succ]
      cases clashLoop thresh mc
          (fragPairs (coords.take a) ((coords.drop a).take b)) 0 with
      | none => exact ⟨false, rfl⟩
      | some c1 =>
          dsimp only
          cases clashLoop thresh mc
              (fragPairs ((coords.drop a).take b) (coords.drop (a + b))) c1 with
          | none => exact ⟨false, rfl⟩
          | some c2 =>
              dsimp only
              cases clashLoop thresh mc
                  (fragPairs (coords.drop (a + b)) (coords.take a)) c2 with
              | none => exact ⟨false, rfl⟩
              | some c3 => exact ⟨true, rfl⟩

/-- Witness for C4's amended arity behaviour at concrete inputs. -/
theorem compenetration_check_arity_witness :
    compenetration_check [] [5] 1 0 = none ∧
      ∃ b, compenetration_check [] [0, 0] 1 0 = some b :=
  ⟨(compenetration_check_arity [] [5] 1 0).1 (by decide),
    (compenetration_check_arity [] [0, 0] 1 0).2 (by decide)⟩

/-- C10: with a two-entry boundary list the verdict depends only on the first
count — the second fragment is everything from index `ids[0]` on, and the
second entry is never read. -/
theorem compenetration_check_second_count_unused (coords : List Pt)
    (a b b' : ℕ) (thresh : ℝ) (mc : ℕ) :
    compenetration_check coords [a, b] thresh mc =
      compenetration_check coords [a, b'] thresh mc := by
  rw [compenetration_check, if_pos (show ([a, b] : List ℕ).length = 2 from rfl),
    compenetration_check, if_pos (show ([a, b'] : List ℕ).length = 2 from rfl)]
  simp only [List.get?_cons_zero]

/-- The components of a coordinate row as a 3-vector, for matrix products. -/
def ptComp (p : Pt) : Fin 3 → ℝ := ![p.1, p.2.1, p.2.2]

/-- Componentwise sum of two coordinate rows. -/
def addPt (a b : Pt) : Pt := (a.1 + b.1, a.2.1 + b.2.1, a.2.2 + b.2.2)

/-- Sum of a list of coordinate rows (`np.sum` along axis 0). -/
def sumPt (l : List Pt) : Pt := l.foldr addPt ((0 : ℝ), 0, 0)

/-- `np.mean(coords, axis=0)`: the componentwise sum divided by the length. -/
noncomputable def meanPt (l : List Pt) : Pt :=
((sumPt l).1 / l.length, (sumPt l).2.1 / l.length, (sumPt l).2.2 / l.length)

/-- Centering used by `rmsd_py`: `coords - np.mean(coords, axis=0)`. -/
noncomputable def centered (l : List Pt) : List Pt :=
l.map (fun p => vsub p (meanPt l))

/-- Squared Euclidean norm of a row; `np.trace(A.T @ A)` is its sum over the
rows of `A`. -/
def sqNorm (p : Pt) : ℝ := p.1 * p.1 + p.2.1 * p.2.1 + p.2.2 * p.2.2

/-- `M_mtx` from `_fallback.py`: `B.T @ A`.  The `numpy` matrix product of a
`3 × len B` and a `len A × 3` array is defined only when the inner dimensions
agree; a mismatch raises `ValueError`, embedded as `none`. -/
noncomputable def M_mtx (A B : List Pt) : Option (Matrix (Fin 3) (Fin 3) ℝ) :=
  if B.length = A.length then
    some (Matrix.of fun i j =>
      ((B.zip A).map (fun p => ptComp p.1 i * ptComp p.2 j)).sum)
  else none

/-- `K_mtx` from `_fallback.py`: the symmetric 4×4 key matrix built from the
entries of `M`. -/
noncomputable def K_mtx (M : Matrix (Fin 3) (Fin 3) ℝ) :
    Matrix (Fin 4) (Fin 4) ℝ :=
  let S_xx := M 0 0
  let S_xy := M 0 1
  let S_xz := M 0 2
  let S_yx := M 1 0
  let S_yy := M 1 1
  let S_yz := M 1 2
  let S_zx := M 2 0
  let S_zy := M 2 1
  let S_zz := M 2 2
  Matrix.of
    ![![S_xx + S_yy + S_zz, S_yz - S_zy, S_zx - S_xz, S_xy - S_yx],
      ![S_yz - S_zy, S_xx - S_yy - S_zz, S_xy + S_yx, S_zx + S_xz],
      ![S_zx - S_xz, S_xy + S_yx, -S_xx + S_yy - S_zz, S_yz + S_zy],
      ![S_xy - S_yx, S_zx + S_xz, S_yz + S_zy, -S_xx - S_yy + S_zz]]

open Classical in
/-- `rmsd_py` from `_fallback.py`, parameterised over the numerical maximal
eigenvalue routine `lmax` (the library call `np.max(np.linalg.eig(K)[0])`,
whose value the embedding keeps abstract).  The only fallible step is the
matrix product `M_mtx`. -/
noncomputable def rmsd_py (lmax : Matrix (Fin 4) (Fin 4) ℝ → ℝ)
    (coords1 coords2 : List Pt) : Option ℝ :=
  let atol : ℝ := 1 / 1000000000
  let A := centered coords1
  let B := centered coords2
  let N := A.length
  let Ga := (A.map sqNorm).sum
  let Gb := (B.map sqNorm).sum
  match M_mtx A B with
  | none => none
  | some M =>
      let K := K_mtx M
      let l_max := lmax K
      let s := Ga + Gb - 2 * l_max
      some (if |s| < atol then 0 else Real.sqrt (s / N))

/-- C6: feeding `rmsd_py` two point sets of different lengths is surfaced to
the caller as an error (`none`, the `numpy` dimension-mismatch `ValueError`
raised inside `B.T @ A`) for every eigenvalue routine, never a number. -/
theorem rmsd_py_length_mismatch (lmax : Matrix (Fin 4) (Fin 4) ℝ → ℝ)
    (coords1 coords2 : List Pt) (h : coords1.length ≠ coords2.length) :
    rmsd_py lmax coords1 coords2 = none := by
  rw [rmsd_py]
  have hM : M_mtx (centered coords1) (centered coords2) = none := by
    rw [M_mtx, if_neg]
    simp only [centered, List.length_map]
    omega
  rw [hM]

/-- Witness for C6: one point against two points is rejected. -/
theorem rmsd_py_length_mismatch_witness :
    rmsd_py (fun _ => 0) [((0 : ℝ), 0, 0)] [((0 : ℝ), 0, 0), ((1 : ℝ), 0, 0)] =
      none :=
  rmsd_py_length_mismatch _ _ _ (by decide)

/-- `scramble_mask` from `_fallback.py`: `[array[s] for s in sequence]`. -/
def scramble_mask {α : Type} [Inhabited α] (array : List α)
    (sequence : List ℕ) : List α :=
sequence.map (fun s => array.getD s default)

/-- `scramble` from `_fallback.py`, the same gather operation. -/
def scramble {α : Type} [Inhabited α] (array : List α)
    (sequence : List ℕ) : List α :=
sequence.map (fun s => array.getD s default)

/-- The inverse permutation computed by `prune_conformers`:
`[np.where(sequence == i)[0][0] for i in range(n)]`, the position of each
`i < n` inside `sequence`. -/
def invSequence (n : ℕ) (sequence : List ℕ) : List ℕ :=
(List.range n).map (fun i => sequence.indexOf i)

/-- One row of the shard's RMSD scan: visits the candidate column indices in
order, recording each computed value, and stops right after the first value
below `max_rmsd` — the `break` inside the double loop of `prune_conformers`.
Entries never computed keep the `max_rmsd` placeholder in the matrix and so
can never satisfy `rmsd_mat < max_rmsd`. -/
def rowScan (v : ℕ → ℕ → ℚ) (max_rmsd : ℚ) (i : ℕ) : List ℕ → List (ℕ × ℚ)
  | [] => []
  | j :: js =>
      (j, v i j) ::
        (if v i j < max_rmsd then [] else rowScan v max_rmsd i js)

/-- The entries of row `i` that the scan actually computes: columns
`i+1, …, l-1` up to and including the first below-threshold match. -/
def rowEntries (v : ℕ → ℕ → ℚ) (max_rmsd : ℚ) (l i : ℕ) : List (ℕ × ℚ) :=
rowScan v max_rmsd i (List.range' (i + 1) (l - (i + 1)))

/-- `np.where(rmsd_mat < max_rmsd)` zipped into index pairs, in row-major
order: the edge list handed to `nx.Graph`. -/
def simMatches (v : ℕ → ℕ → ℚ) (max_rmsd : ℚ) (l : ℕ) : List (ℕ × ℕ) :=
(List.range l).flatMap (fun i =>
  ((rowEntries v max_rmsd l i).filter (fun e => e.2 < max_rmsd)).map
    (fun e => (i, e.1)))

/-- Undirected adjacency of the similarity graph with edge list `E`. -/
def adjP (E : List (ℕ × ℕ)) (a b : ℕ) : Prop := (a, b) ∈ E ∨ (b, a) ∈ E

/-- The graph neighbours of index `i` in the edge list `E`. -/
def nbrs (E : List (ℕ × ℕ)) (i : ℕ) : List ℕ :=
E.filterMap (fun p =>
  if p.1 = i then some p.2 else if p.2 = i then some p.1 else none)

/-- One breadth step of the component computation: a vertex list together
with all neighbours of its members. -/
def grow (E : List (ℕ × ℕ)) (s : List ℕ) : List ℕ :=
(s ++ s.flatMap (nbrs E)).dedup

/-- Fuelled closure: after `n` steps, all vertices within graph distance `n`
of `i`. -/
def compFuel (E : List (ℕ × ℕ)) : ℕ → ℕ → List ℕ
  | 0, i => [i]
  | n + 1, i => grow E (compFuel E n i)

/-- Modelled semantics of the `networkx` calls in `prune_conformers`
(`nx.Graph(matches)`, `nx.connected_components`, representative
`group[0]`, rejection of the rest): index `i` is kept exactly when it is the
least member of its connected component — the first member encountered by
local index, since `matches` is sorted row-major with `i < j` in every pair.
`l` steps of closure suffice because every vertex is below `l`. -/
def keepB (E : List (ℕ × ℕ)) (l i : ℕ) : Bool :=
(compFuel E l i).all (fun j => i ≤ j)

/-- The keep-mask of one shard, by local index. -/
def shardMaskIdx (v : ℕ → ℕ → ℚ) (max_rmsd : ℚ) (l : ℕ) : List Bool :=
(List.range l).map (fun i => keepB (simMatches v max_rmsd l) l i)

/-- The keep-mask of one shard of structures, with `kabsch_rmsd` abstracted
as the metric `f`. -/
def shardMask {α : Type} [Inhabited α] (sub : List α) (max_rmsd : ℚ)
    (f : α → α → ℚ) : List Bool :=
shardMaskIdx (fun i j => f (sub.getD i default) (sub.getD j default))
  max_rmsd sub.length

/-- Boolean-mask selection `structures[mask]` of `numpy`. -/
def applyMask {α : Type} (a : List α) (m : List Bool) : List α :=
((a.zip m).filter (fun p => p.2)).map (fun p => p.1)

/-- The shard of the (possibly shuffled) ensemble processed at `step`: the
last shard takes everything from `d*step` on, the others `d` structures. -/
def shardOf {α : Type} (structures1 : List α) (k d step : ℕ) : List α :=
if step = k - 1 then structures1.drop (d * step)
else (structures1.drop (d * step)).take d

/-- `prune_conformers` from `_fallback.py`, parameterised over the metric
`f` standing for the library call `kabsch_rmsd` (whose float values are
rationals) and over `seq`, the random permutation drawn by
`np.random.permutation` when `k != 1`.  Returns the retained subset and the
keep-mask. -/
def prune_conformers {α : Type} [Inhabited α] (structures : List α)
    (k : ℕ) (max_rmsd : ℚ) (f : α → α → ℚ) (seq : List ℕ) :
    List α × List Bool :=
  let structures1 := if k ≠ 1 then scramble structures seq else structures
  let inv_sequence := invSequence structures.length seq
  let d := structures1.length / k
  let mask :=
    ((List.range k).map
      (fun step => shardMask (shardOf structures1 k d step) max_rmsd f)).flatten
  let mask2 := if k ≠ 1 then scramble_mask mask inv_sequence else mask
  let structures2 :=
    if k ≠ 1 then scramble structures1 inv_sequence else structures1
  (applyMask structures2 mask2, mask2)

/-- C7: for every ensemble, every shard count `k` between 1 and the ensemble
length, and every permutation drawn for the shuffle, the keep-mask returned
by `prune_conformers` has exactly the length of the input ensemble. -/
theorem prune_conformers_mask_length {α : Type} [Inhabited α]
    (structures : List α) (k : ℕ) (max_rmsd : ℚ) (f : α → α → ℚ)
    (seq : List ℕ) (hk1 : 1 ≤ k) (hk2 : k ≤ structures.length)
    (hperm : seq.Perm (List.range structures.length)) :
    (prune_conformers structures k max_rmsd f seq).2.length =
      structures.length := by
  have hshard : ∀ sub : List α, (shardMask sub max_rmsd f).length = sub.length :=
    fun sub => by simp [shardMask, shardMaskIdx]
  by_cases hk : k = 1
  · subst hk
    have hr1 : List.range 1 = [0] := rfl
    simp [prune_conformers, shardOf, hshard, hr1, Function.comp_def]
  · simp [prune_conformers, hk, scramble_mask, invSequence]

/-- Witness for C7 at a concrete three-structure ensemble split in two
shards. -/
theorem prune_conformers_mask_length_witness :
    (prune_conformers ([0, 1, 2] : List ℚ) 2 1 (fun a b => |a - b|)
        [2, 0, 1]).2.length = ([0, 1, 2] : List ℚ).length :=
  prune_conformers_mask_length _ _ _ _ _ (by decide) (by decide) (by decide)

/-- C8: when `k = 1` the result of `prune_conformers` does not depend on the
drawn permutation (no shuffle is applied), and for every array and every
permutation listing of its index range, scrambling by the permutation and
then by the computed inverse permutation restores the array. -/
theorem prune_scramble_inverse :
    (∀ (α : Type) (inst : Inhabited α) (structures : List α) (max_rmsd : ℚ)
        (f : α → α → ℚ) (seq seq' : List ℕ),
        @prune_conformers α inst structures 1 max_rmsd f seq =
          @prune_conformers α inst structures 1 max_rmsd f seq') ∧
      (∀ (α : Type) (inst : Inhabited α) (a : List α) (seq : List ℕ),
        seq.Perm (List.range a.length) →
          @scramble_mask α inst (@scramble α inst a seq)
            (invSequence a.length seq) = a) := by
  constructor
  · intro α inst structures max_rmsd f seq seq'
    simp [prune_conformers]
  · intro α inst a seq hperm
    have hlen : seq.length = a.length := by
      simpa using hperm.length_eq
    apply List.ext_getElem
    · simp [scramble_mask, scramble, invSequence]
    · intro i hi1 hi2
      have hmem : i ∈ seq := hperm.mem_iff.mpr (List.mem_range.mpr hi2)
      have hidx : List.indexOf i seq < seq.length :=
        List.indexOf_lt_length.mpr hmem
      simp only [scramble_mask, scramble, invSequence, List.getElem_map,
        List.getElem_range]
      rw [List.getD_eq_getElem _ _ (by simpa using hidx)]
      simp only [List.getElem_map]
      rw [List.getElem_indexOf hidx]
      exact List.getD_eq_getElem a default hi2

/-- Witness for C8 at a concrete array and permutation. -/
theorem prune_scramble_inverse_witness :
    prune_conformers ([3, 7] : List ℚ) 1 1 (fun a b => |a - b|) [0, 1] =
        prune_conformers ([3, 7] : List ℚ) 1 1 (fun a b => |a - b|) [1, 0] ∧
      scramble_mask (scramble [true, false] [1, 0]) (invSequence 2 [1, 0]) =
        [true, false] :=
  ⟨prune_scramble_inverse.1 ℚ _ _ _ _ _ _,
    prune_scramble_inverse.2 Bool _ [true, false] [1, 0] (by decide)⟩

/-- Every entry recorded by the row scan comes from the visited column list
and carries the computed value. -/
theorem rowScan_mem (v : ℕ → ℕ → ℚ) (max_rmsd : ℚ) (i : ℕ) :
    ∀ (L : List ℕ) (e : ℕ × ℚ), e ∈ rowScan v max_rmsd i L →
      e.1 ∈ L ∧ e.2 = v i e.1 := by
  intro L
  induction L with
  | nil => intro e he; simp [rowScan] at he
  | cons j js ih =>
      intro e he
      rw [rowScan] at he
      rcases List.mem_cons.mp he with he1 | he2
      · subst he1; simp
      · by_cases hb : v i j < max_rmsd
        · rw [if_pos hb] at he2; simp at he2
        · rw [if_neg hb] at he2
          obtain ⟨h1, h2⟩ := ih e he2
          exact ⟨List.mem_cons_of_mem _ h1, h2⟩

/-- The below-threshold entries of a row scan are exactly the first
below-threshold column, if any: the `break` leaves at most one match per
row. -/
theorem rowScan_filter_eq (v : ℕ → ℕ → ℚ) (max_rmsd : ℚ) (i : ℕ) :
    ∀ L : List ℕ,
      (rowScan v max_rmsd i L).filter (fun e => decide (e.2 < max_rmsd)) =
        match L.find? (fun j => decide (v i j < max_rmsd)) with
        | none => []
        | some j => [(j, v i j)] := by
  intro L
  induction L with
  | nil => rfl
  | cons j js ih =>
      rw [rowScan, List.find?]
      by_cases hb : v i j < max_rmsd
      · rw [if_pos hb]
        simp only [hb, decide_True, List.filter_cons_of_pos, List.filter_nil]
      · rw [if_neg hb]
        have hdec : (decide (v i j < max_rmsd)) = false := by
          simpa using hb
        rw [List.filter_cons_of_neg (by simpa using hb), hdec, ih]

/-- Characterisation of `find?` on a contiguous index range: it returns `j`
exactly when `j` is in range, satisfies the test, and every smaller in-range
index fails it. -/
theorem find?_range'_eq_some (p : ℕ → Bool) :
    ∀ (n s j : ℕ),
      (List.range' s n).find? p = some j ↔
        s ≤ j ∧ j < s + n ∧ p j = true ∧
          ∀ k, s ≤ k → k < j → p k = false := by
  intro n
  induction n with
  | zero =>
      intro s j
      constructor
      · intro h; simp [List.range'] at h
      · intro ⟨h1, h2, _, _⟩; omega
  | succ n ih =>
      intro s j
      rw [List.range', List.find?]
      by_cases hp : p s = true
      · rw [hp]
        constructor
        · intro h
          have hj : j = s := by simpa using h.symm
          subst hj
          exact ⟨le_refl _, by omega, hp, fun k hk1 hk2 => by omega⟩
        · intro ⟨h1, h2, h3, h4⟩
          rcases Nat.eq_or_lt_of_le h1 with he | hlt
          · simp [he]
          · have := h4 s (le_refl _) hlt
            rw [hp] at this
            cases this
      · have hps : p s = false := by
          simpa using hp
        rw [hps]
        rw [ih (s + 1) j]
        constructor
        · intro ⟨h1, h2, h3, h4⟩
          refine ⟨by omega, by omega, h3, ?_⟩
          intro k hk1 hk2
          rcases Nat.eq_or_lt_of_le hk1 with he | hlt
          · rw [← he]; exact hps
          · exact h4 k hlt hk2
        · intro ⟨h1, h2, h3, h4⟩
          have hjs : j ≠ s := by
            intro he; rw [he] at h3; rw [h3] at hps; cases hps
          refine ⟨by omega, by omega, h3, ?_⟩
          intro k hk1 hk2
          exact h4 k (by omega) hk2

/-- C1's corrected edge law: `(i, j)` is an edge of the similarity graph
exactly when `j` is the FIRST column after `i` whose RMSD against `i` is
below the threshold; later below-threshold columns of the same row are
skipped by the `break`. -/
theorem simMatches_iff (v : ℕ → ℕ → ℚ) (max_rmsd : ℚ) (l : ℕ) (i j : ℕ) :
    (i, j) ∈ simMatches v max_rmsd l ↔
      i < l ∧ i < j ∧ j < l ∧ v i j < max_rmsd ∧
        ∀ jq, i < jq → jq < j → ¬(v i jq < max_rmsd) := by
  constructor
  · intro h
    obtain ⟨i', hi', hmem⟩ := List.mem_flatMap.mp h
    obtain ⟨e, he, heq⟩ := List.mem_map.mp hmem
    have hii1 : i' = i := congrArg Prod.fst heq
    have he1 : e.1 = j := congrArg Prod.snd heq
    rw [hii1] at hi' he
    rw [rowEntries, rowScan_filter_eq] at he
    rcases hfind : (List.range' (i + 1) (l - (i + 1))).find?
        (fun jq => decide (v i jq < max_rmsd)) with _ | j0
    · rw [hfind] at he; simp at he
    · rw [hfind] at he
      have hej : e = (j0, v i j0) := by simpa using he
      have hj0 : j0 = j := by rw [hej] at he1; exact he1
      subst hj0
      obtain ⟨h1, h2, h3, h4⟩ := (find?_range'_eq_some _ _ _ _).mp hfind
      have hil : i < l := List.mem_range.mp hi'
      refine ⟨hil, by omega, by omega, by simpa using h3, ?_⟩
      intro jq hq1 hq2
      have := h4 jq (by omega) hq2
      simpa using this
  · intro ⟨h1, h2, h3, h4, h5⟩
    apply List.mem_flatMap.mpr
    refine ⟨i, List.mem_range.mpr h1, ?_⟩
    apply List.mem_map.mpr
    refine ⟨(j, v i j), ?_, rfl⟩
    rw [rowEntries, rowScan_filter_eq]
    have hfind : (List.range' (i + 1) (l - (i + 1))).find?
        (fun jq => decide (v i jq < max_rmsd)) = some j := by
      apply (find?_range'_eq_some _ _ _ _).mpr
      refine ⟨by omega, by omega, by simpa using h4, ?_⟩
      intro k hk1 hk2
      simpa using h5 k (by omega) hk2
    rw [hfind]
    simp

/-- Every endpoint of an edge of the similarity graph is a local index below
the shard length. -/
theorem simMatches_lt (v : ℕ → ℕ → ℚ) (max_rmsd : ℚ) (l : ℕ) :
    ∀ p ∈ simMatches v max_rmsd l, p.1 < l ∧ p.2 < l := by
  intro p hp
  obtain ⟨h1, h2, h3, _⟩ := (simMatches_iff v max_rmsd l p.1 p.2).mp hp
  exact ⟨h1, h3⟩

/-- Membership in the neighbour list is exactly undirected adjacency. -/
theorem mem_nbrs (E : List (ℕ × ℕ)) (a x : ℕ) :
    x ∈ nbrs E a ↔ adjP E a x := by
  rw [nbrs, adjP]
  rw [List.mem_filterMap]
  constructor
  · intro ⟨p, hp, hsome⟩
    by_cases h1 : p.1 = a
    · rw [if_pos h1] at hsome
      have : p.2 = x := by simpa using hsome
      left
      have hpp : p = (a, x) := by
        cases p; simp_all
      rw [← hpp]; exact hp
    · rw [if_neg h1] at hsome
      by_cases h2 : p.2 = a
      · rw [if_pos h2] at hsome
        have : p.1 = x := by simpa using hsome
        right
        have hpp : p = (x, a) := by
          cases p; simp_all
        rw [← hpp]; exact hp
      · rw [if_neg h2] at hsome; cases hsome
  · intro h
    rcases h with h | h
    · refine ⟨(a, x), h, ?_⟩
      simp
    · refine ⟨(x, a), h, ?_⟩
      by_cases hxa : x = a
      · simp [hxa]
      · simp [hxa]

/-- Membership in one closure step. -/
theorem mem_grow (E : List (ℕ × ℕ)) (s : List ℕ) (x : ℕ) :
    x ∈ grow E s ↔ x ∈ s ∨ ∃ a ∈ s, adjP E a x := by
  rw [grow, List.mem_dedup, List.mem_append, List.mem_flatMap]
  constructor
  · intro h
    rcases h with h | ⟨a, ha, hx⟩
    · exact Or.inl h
    · exact Or.inr ⟨a, ha, (mem_nbrs E a x).mp hx⟩
  · intro h
    rcases h with h | ⟨a, ha, hx⟩
    · exact Or.inl h
    · exact Or.inr ⟨a, ha, (mem_nbrs E a x).mpr hx⟩

/-- The fuelled closure is monotone in the fuel. -/
theorem compFuel_subset_succ (E : List (ℕ × ℕ)) (n i x : ℕ)
    (h : x ∈ compFuel E n i) : x ∈ compFuel E (n + 1) i := by
  rw [compFuel, mem_grow]
  exact Or.inl h

/-- The root belongs to its own closure at every fuel. -/
theorem mem_compFuel_self (E : List (ℕ × ℕ)) (n i : ℕ) :
    i ∈ compFuel E n i := by
  induction n with
  | zero => simp [compFuel]
  | succ n ih => exact compFuel_subset_succ E n i i ih

/-- Soundness: every vertex in the fuelled closure is reachable from the
root through the undirected similarity relation. -/
theorem compFuel_sound (E : List (ℕ × ℕ)) :
    ∀ (n i x : ℕ), x ∈ compFuel E n i →
      Relation.ReflTransGen (adjP E) i x := by
  intro n
  induction n with
  | zero =>
      intro i x hx
      have : x = i := by simpa [compFuel] using hx
      rw [this]
  | succ n ih =>
      intro i x hx
      rw [compFuel, mem_grow] at hx
      rcases hx with hx | ⟨a, ha, hadj⟩
      · exact ih i x hx
      · exact Relation.ReflTransGen.tail (ih i a ha) hadj

/-- All closure members stay below `l` when the root and every edge endpoint
do. -/
theorem compFuel_lt (E : List (ℕ × ℕ)) (l : ℕ)
    (hE : ∀ p ∈ E, p.1 < l ∧ p.2 < l) :
    ∀ (n i x : ℕ), i < l → x ∈ compFuel E n i → x < l := by
  intro n
  induction n with
  | zero =>
      intro i x hi hx
      have : x = i := by simpa [compFuel] using hx
      omega
  | succ n ih =>
      intro i x hi hx
      rw [compFuel, mem_grow] at hx
      rcases hx with hx | ⟨a, ha, hadj⟩
      · exact ih i x hi hx
      · rcases hadj with hadj | hadj
        · exact (hE _ hadj).2
        · exact (hE _ hadj).1

/-- `grow` only depends on the membership set of its argument. -/
theorem grow_congr (E : List (ℕ × ℕ)) (s t : List ℕ)
    (h : ∀ y, y ∈ s ↔ y ∈ t) :
    ∀ y, y ∈ grow E s ↔ y ∈ grow E t := by
  intro y
  rw [mem_grow, mem_grow]
  constructor
  · intro hy
    rcases hy with hy | ⟨a, ha, hadj⟩
    · exact Or.inl ((h y).mp hy)
    · exact Or.inr ⟨a, (h a).mp ha, hadj⟩
  · intro hy
    rcases hy with hy | ⟨a, ha, hadj⟩
    · exact Or.inl ((h y).mpr hy)
    · exact Or.inr ⟨a, (h a).mpr ha, hadj⟩

/-- Once one closure step adds nothing, no later step does. -/
theorem compFuel_stable (E : List (ℕ × ℕ)) (i n : ℕ)
    (h : ∀ y, y ∈ compFuel E (n + 1) i ↔ y ∈ compFuel E n i) :
    ∀ m, n ≤ m → ∀ y, y ∈ compFuel E m i ↔ y ∈ compFuel E n i := by
  intro m
  induction m with
  | zero =>
      intro hm y
      have : n = 0 := by omega
      rw [this]
  | succ m ih =>
      intro hm y
      rcases Nat.eq_or_lt_of_le hm with he | hlt
      · rw [← he]
      · have hnm : n ≤ m := by omega
        have hstep : ∀ z, z ∈ compFuel E (m + 1) i ↔ z ∈ compFuel E (n + 1) i := by
          intro z
          rw [compFuel, compFuel]
          exact grow_congr E _ _ (fun w => ih hnm w) z
        rw [hstep y, h y]

/-- Pigeonhole saturation: with all vertices below `l`, the closure is
already stable at fuel `l`: one more step adds nothing. -/
theorem compFuel_saturated (E : List (ℕ × ℕ)) (l i : ℕ)
    (hE : ∀ p ∈ E, p.1 < l ∧ p.2 < l) (hi : i < l) :
    ∀ y, y ∈ compFuel E (l + 1) i ↔ y ∈ compFuel E l i := by
  by_cases hstab : ∃ n, n < l ∧
      ∀ y, y ∈ compFuel E (n + 1) i ↔ y ∈ compFuel E n i
  · obtain ⟨n, hn, hstable⟩ := hstab
    intro y
    rw [compFuel_stable E i n hstable (l + 1) (by omega) y,
      compFuel_stable E i n hstable l (by omega) y]
  · exfalso
    push_neg at hstab
    have hcard : ∀ n, n ≤ l → n + 1 ≤ (compFuel E n i).toFinset.card := by
      intro n
      induction n with
      | zero =>
          intro _
          have : (compFuel E 0 i).toFinset = {i} := by
            simp [compFuel]
          rw [this]
          simp
      | succ n ih =>
          intro hn
          have hsub : (compFuel E n i).toFinset ⊂ (compFuel E (n + 1) i).toFinset := by
            rw [Finset.ssubset_iff_of_subset]
            · obtain ⟨y, hy⟩ := hstab n (by omega)
              rcases hy with ⟨hy1, hy2⟩ | ⟨hy1, hy2⟩
              · exact ⟨y, by simpa using hy1, by simpa using hy2⟩
              · exact absurd (compFuel_subset_succ E n i y hy2) hy1
            · intro y hy
              simp only [List.mem_toFinset] at hy ⊢
              exact compFuel_subset_succ E n i y hy
          have := Finset.card_lt_card hsub
          have := ih (by omega)
          omega
    have h1 : l + 1 ≤ (compFuel E l i).toFinset.card := hcard l (le_refl l)
    have h2 : (compFuel E l i).toFinset ⊆ Finset.range l := by
      intro y hy
      simp only [List.mem_toFinset] at hy
      exact Finset.mem_range.mpr (compFuel_lt E l hE l i y hi hy)
    have h3 : (compFuel E l i).toFinset.card ≤ l := by
      have := Finset.card_le_card h2
      simpa using this
    omega

/-- Completeness: every vertex reachable from the root lies in the fuel-`l`
closure. -/
theorem compFuel_complete (E : List (ℕ × ℕ)) (l i : ℕ)
    (hE : ∀ p ∈ E, p.1 < l ∧ p.2 < l) (hi : i < l) :
    ∀ x, Relation.ReflTransGen (adjP E) i x → x ∈ compFuel E l i := by
  intro x hx
  induction hx with
  | refl => exact mem_compFuel_self E l i
  | tail hr hadj ih =>
      rename_i b c
      apply (compFuel_saturated E l i hE hi c).mp
      rw [compFuel, mem_grow]
      exact Or.inr ⟨b, ih, hadj⟩

/-- The kept indices are exactly the least members of their connected
components (indices touching no edge are their own components and are
kept). -/
theorem keepB_iff (E : List (ℕ × ℕ)) (l i : ℕ)
    (hE : ∀ p ∈ E, p.1 < l ∧ p.2 < l) (hi : i < l) :
    keepB E l i = true ↔
      ∀ j, Relation.ReflTransGen (adjP E) i j → i ≤ j := by
  rw [keepB, List.all_eq_true]
  constructor
  · intro h j hj
    have := h j (compFuel_complete E l i hE hi j hj)
    simpa using this
  · intro h x hx
    have := h x (compFuel_sound E l i x hx)
    simpa using this

/-- C1 amended: within a shard of length `l` with metric values `v`, the
similarity graph's edges are exactly the pairs `(i, j)` where `j` is the
FIRST index after `i` with RMSD below the threshold (the scan of row `i`
stops at its first match, so later below-threshold pairs of the row are not
edges); and an index is kept exactly when it is the first member — least
local index — of its connected component, indices touching no edge being
always kept. -/
theorem prune_shard_graph (v : ℕ → ℕ → ℚ) (max_rmsd : ℚ) (l : ℕ) :
    (∀ i j : ℕ,
        (i, j) ∈ simMatches v max_rmsd l ↔
          i < l ∧ i < j ∧ j < l ∧ v i j < max_rmsd ∧
            ∀ jq, i < jq → jq < j → ¬(v i jq < max_rmsd)) ∧
      (∀ i : ℕ, i < l →
        ((shardMaskIdx v max_rmsd l).getD i false = true ↔
          ∀ j, Relation.ReflTransGen (adjP (simMatches v max_rmsd l)) i j →
            i ≤ j)) := by
  constructor
  · exact simMatches_iff v max_rmsd l
  · intro i hi
    have hE := simMatches_lt v max_rmsd l
    have hget : (shardMaskIdx v max_rmsd l).getD i false =
        keepB (simMatches v max_rmsd l) l i := by
      rw [shardMaskIdx, List.getD_eq_getElem _ _ (by simpa using hi)]
      simp
    rw [hget]
    exact keepB_iff _ l i hE hi

/-- A shard of three structures, identified by labels. -/
def subC1 : List ℕ := [0, 1, 2]

/-- A concrete stand-in for the RMSD metric on the three labelled
structures: pairs `(0,1)` and `(0,2)` measure below the threshold 1, pair
`(1,2)` above. -/
def rmsdTab (a b : ℕ) : ℚ :=
  if (a = 0 ∧ b = 1) ∨ (a = 1 ∧ b = 0) then 0
  else if (a = 0 ∧ b = 2) ∨ (a = 2 ∧ b = 0) then 0
  else 5

/-- C1 counterexample: pair `(0, 2)` of the shard has RMSD `0 < 1`, yet it
is NOT an edge of the graph the code builds (the scan of row 0 broke at the
earlier match `(0, 1)`), and consequently local index 2 — which the claim
would place in the component of 0 and reject — is retained by the mask. -/
theorem prune_shard_counterexample :
    rmsdTab (subC1.getD 0 0) (subC1.getD 2 0) < 1 ∧
      (0, 2) ∉
        simMatches (fun i j => rmsdTab (subC1.getD i 0) (subC1.getD j 0)) 1 3 ∧
      (shardMask subC1 1 rmsdTab).getD 2 false = true := by
  decide

/-- Witness for C1's amended mask law at local index 0 of the same shard. -/
theorem prune_shard_graph_witness :
    (0 : ℕ) < 3 ∧
      (shardMaskIdx (fun i j => rmsdTab (subC1.getD i 0) (subC1.getD j 0)) 1
          3).getD 0 false = true :=
  ⟨by decide,
    ((prune_shard_graph (fun i j => rmsdTab (subC1.getD i 0) (subC1.getD j 0))
        1 3).2 0 (by decide)).mpr (fun j _ => Nat.zero_le j)⟩

/-- Python's built-in `round`: nearest integer, ties to the even integer. -/
def pyround (q : ℚ) : ℤ :=
  let f : ℤ := q.num.fdiv q.den
  let r : ℚ := q - (f : ℚ)
  if 2 * r < 1 then f
  else if 1 < 2 * r then f + 1
  else if f % 2 = 0 then f else f + 1

/-- Mathematical ceiling of a rational (`int(np.ceil(x))` for `x ≥ 0`). -/
def qceil (q : ℚ) : ℤ := -((-q).num.fdiv (-q).den)

/-- The state of a `Density_object` that `compute_CoDe` reads: the aligned
conformer coordinates, the relative energies, and the temperature. -/
structure DensityState where
  atomcoords : List (List (ℚ × ℚ × ℚ))
  energies : List ℚ
  T : ℚ

/-- `self.atoms`: every atom position of every conformer, flattened. -/
def atomsOf (st : DensityState) : List (ℚ × ℚ × ℚ) := st.atomcoords.flatten

/-- `stamp_len = round(stamp_size / voxel_dim)`. -/
def stampLen (vd ss : ℚ) : ℕ := (pyround (ss / vd)).toNat

/-- `outline = 2 * stamp_len`. -/
def outlineOf (vd ss : ℚ) : ℕ := 2 * stampLen vd ss

/-- One cell of the spherical stamp:
`exp(-hardness*voxel_dim/stamp_size * r²)` with `r²` measured from the
stamp centre `stamp_len/2`. -/
noncomputable def stampVal (vd ss hard : ℚ) (x y z : ℤ) : ℝ :=
  let sl : ℚ := (stampLen vd ss : ℚ)
  Real.exp
    (((-hard * vd / ss) *
        (((x : ℚ) - sl / 2) ^ 2 + ((y : ℚ) - sl / 2) ^ 2 +
          ((z : ℚ) - sl / 2) ^ 2) : ℚ))

/-- Python `min` of a coordinate list (never called on `[]`; the guarded
default is junk). -/
def listMinD : List ℚ → ℚ
  | [] => 0
  | a :: l => l.foldl min a

/-- Python `max` of a coordinate list (same guard). -/
def listMaxD : List ℚ → ℚ
  | [] => 0
  | a :: l => l.foldl max a

/-- The box shape: voxels needed to span the ensemble extent on each axis,
plus an outline of `2*stamp_len`. -/
def shapeOf (st : DensityState) (vd ss : ℚ) : ℕ × ℕ × ℕ :=
  let atoms := atomsOf st
  let xs := atoms.map (fun p => p.1)
  let ys := atoms.map (fun p => p.2.1)
  let zs := atoms.map (fun p => p.2.2)
  let ol := outlineOf vd ss
  ((qceil ((listMaxD xs - listMinD xs) / vd)).toNat + ol,
    (qceil ((listMaxD ys - listMinD ys) / vd)).toNat + ol,
    (qceil ((listMaxD zs - listMinD zs) / vd)).toNat + ol)

/-- Boltzmann weight of conformer energy `e`:
`exp(-e * 503.2475342795285 / T)`. -/
noncomputable def weightOf (e T : ℚ) : ℝ :=
Real.exp ((-e * (5032475342795285 / 10000000000000) / T : ℚ))

/-- The voxel index of an atom coordinate on one axis:
`round((coord - min)/voxel_dim + outline/2)`. -/
def posIdx (vd : ℚ) (ol : ℕ) (minv coord : ℚ) : ℤ :=
pyround ((coord - minv) / vd + (ol : ℚ) / 2)

/-- The accumulated (pre-normalisation) density box as a cell function: the
sum, over conformers below the 10 kcal/mol cutoff and over their atoms, of
the stamp cell covering `p`, weighted by the conformer's Boltzmann factor.
The in-place slice additions of the Python code commute into this sum. -/
noncomputable def boxAcc (st : DensityState) (vd ss hard : ℚ)
    (p : ℕ × ℕ × ℕ) : ℝ :=
  let atoms := atomsOf st
  let mx := listMinD (atoms.map (fun q => q.1))
  let my := listMinD (atoms.map (fun q => q.2.1))
  let mz := listMinD (atoms.map (fun q => q.2.2))
  let sl : ℤ := stampLen vd ss
  let ol := outlineOf vd ss
  ((List.range st.atomcoords.length).map (fun i =>
    if st.energies.getD i 0 < 10 then
      ((st.atomcoords.getD i []).map (fun atom =>
        let xp := posIdx vd ol mx atom.1
        let yp := posIdx vd ol my atom.2.1
        let zp := posIdx vd ol mz atom.2.2
        if xp ≤ (p.1 : ℤ) ∧ (p.1 : ℤ) < xp + sl ∧
            yp ≤ (p.2.1 : ℤ) ∧ (p.2.1 : ℤ) < yp + sl ∧
            zp ≤ (p.2.2 : ℤ) ∧ (p.2.2 : ℤ) < zp + sl then
          stampVal vd ss hard ((p.1 : ℤ) - xp) ((p.2.1 : ℤ) - yp)
              ((p.2.2 : ℤ) - zp) *
            weightOf (st.energies.getD i 0) st.T
        else 0)).sum
    else 0)).sum

/-- All cells of a grid, flattened in index order. -/
def cellsList {A : Type} (shape : ℕ × ℕ × ℕ) (g : ℕ × ℕ × ℕ → A) : List A :=
(List.range shape.1).flatMap (fun x =>
  (List.range shape.2.1).flatMap (fun y =>
    (List.range shape.2.2).map (fun z => g (x, y, z))))

/-- Python `max` over the flattened box. -/
noncomputable def listMaxR : List ℝ → ℝ
  | [] => 0
  | a :: l => l.foldl max a

/-- A grid cell is inside the box. -/
def inShape (shape p : ℕ × ℕ × ℕ) : Prop :=
p.1 < shape.1 ∧ p.2.1 < shape.2.1 ∧ p.2.2 < shape.2.2

/-- The result of `compute_CoDe`: the box shape and the density grid. -/
structure CoDeOut where
  shape : ℕ × ℕ × ℕ
  grid : ℕ × ℕ × ℕ → ℝ

/-- `compute_CoDe` from `rdkit_Class.py`.  `min()` over the coordinates of
an empty ensemble raises (`none`), as does `max()` over an empty flattened
box; otherwise the accumulated box is normalised by
`100 * box / max(box)` — with no guard against an all-zero box, whose
maximal cell is 0. -/
noncomputable def compute_CoDe (st : DensityState) (vd ss hard : ℚ) :
    Option CoDeOut :=
  if atomsOf st = [] then none
  else
    let shape := shapeOf st vd ss
    let box := boxAcc st vd ss hard
    if cellsList shape box = [] then none
    else some ⟨shape, fun p => 100 * box p / listMaxR (cellsList shape box)⟩

/-- A left fold by `max` dominates its seed. -/
theorem foldl_max_init : ∀ (l : List ℝ) (a : ℝ), a ≤ l.foldl max a := by
  intro l
  induction l with
  | nil => intro a; simp
  | cons b t ih =>
      intro a
      calc a ≤ max a b := le_max_left a b
        _ ≤ t.foldl max (max a b) := ih (max a b)

/-- A left fold by `max` dominates every list member. -/
theorem foldl_max_le_of_mem :
    ∀ (l : List ℝ) (a x : ℝ), x ∈ l → x ≤ l.foldl max a := by
  intro l
  induction l with
  | nil => intro a x hx; simp at hx
  | cons b t ih =>
      intro a x hx
      rcases List.mem_cons.mp hx with rfl | hx
      · calc x ≤ max a x := le_max_right a x
          _ ≤ t.foldl max (max a x) := foldl_max_init t _
      · exact ih (max a b) x hx

/-- A left fold by `max` is the seed or a member. -/
theorem foldl_max_mem :
    ∀ (l : List ℝ) (a : ℝ), l.foldl max a = a ∨ l.foldl max a ∈ l := by
  intro l
  induction l with
  | nil => intro a; exact Or.inl rfl
  | cons b t ih =>
      intro a
      rw [List.foldl_cons]
      rcases ih (max a b) with h | h
      · rcases max_cases a b with ⟨hm, _⟩ | ⟨hm, _⟩
        · left; rw [h, hm]
        · right; rw [h, hm]; exact List.mem_cons_self b t
      · right; exact List.mem_cons_of_mem b h

/-- The Python `max` of a list bounds every member. -/
theorem le_listMaxR (l : List ℝ) (x : ℝ) (hx : x ∈ l) : x ≤ listMaxR l := by
  cases l with
  | nil => simp at hx
  | cons a t =>
      rw [listMaxR]
      rcases List.mem_cons.mp hx with rfl | hx
      · exact foldl_max_init t x
      · exact foldl_max_le_of_mem t a x hx

/-- The Python `max` of a non-empty list is one of its members. -/
theorem listMaxR_mem (l : List ℝ) (h : l ≠ []) : listMaxR l ∈ l := by
  cases l with
  | nil => exact absurd rfl h
  | cons a t =>
      rw [listMaxR]
      rcases foldl_max_mem t a with h1 | h1
      · rw [h1]; exact List.mem_cons_self a t
      · exact List.mem_cons_of_mem a h1

/-- Every cell of the accumulated box is non-negative: each contribution is
a product of exponentials. -/
theorem boxAcc_nonneg (st : DensityState) (vd ss hard : ℚ)
    (p : ℕ × ℕ × ℕ) : 0 ≤ boxAcc st vd ss hard p := by
  rw [boxAcc]
  apply List.sum_nonneg
  intro x hx
  obtain ⟨i, _, rfl⟩ := List.mem_map.mp hx
  by_cases he : st.energies.getD i 0 < 10
  · rw [if_pos he]
    apply List.sum_nonneg
    intro y hy
    obtain ⟨atom, _, rfl⟩ := List.mem_map.mp hy
    dsimp only
    split
    · apply le_of_lt
      exact mul_pos (Real.exp_pos _) (Real.exp_pos _)
    · exact le_refl 0
  · rw [if_neg he]

/-- With no atoms at all, every accumulated cell is zero. -/
theorem boxAcc_of_empty (st : DensityState) (vd ss hard : ℚ)
    (p : ℕ × ℕ × ℕ) (h : atomsOf st = []) : boxAcc st vd ss hard p = 0 := by
  have hconf : ∀ c ∈ st.atomcoords, c = [] :=
    List.flatten_eq_nil_iff.mp h
  rw [boxAcc]
  apply List.sum_eq_zero
  intro x hx
  obtain ⟨i, hi, rfl⟩ := List.mem_map.mp hx
  have hgetD : st.atomcoords.getD i [] = [] := by
    by_cases hlt : i < st.atomcoords.length
    · rw [List.getD_eq_getElem _ _ hlt]
      exact hconf _ (List.getElem_mem hlt)
    · exact List.getD_eq_default _ _ (by omega)
  rw [hgetD]
  simp

/-- A cell inside the box shape occurs in the flattened cell list. -/
theorem mem_cellsList {A : Type} (shape : ℕ × ℕ × ℕ) (g : ℕ × ℕ × ℕ → A)
    (p : ℕ × ℕ × ℕ) (h : inShape shape p) : g p ∈ cellsList shape g := by
  rw [cellsList]
  apply List.mem_flatMap.mpr
  refine ⟨p.1, List.mem_range.mpr h.1, ?_⟩
  apply List.mem_flatMap.mpr
  refine ⟨p.2.1, List.mem_range.mpr h.2.1, ?_⟩
  apply List.mem_map.mpr
  exact ⟨p.2.2, List.mem_range.mpr h.2.2, rfl⟩

/-- Flattening commutes with applying a function cellwise. -/
theorem cellsList_map {A B : Type} (shape : ℕ × ℕ × ℕ) (g : ℕ × ℕ × ℕ → A)
    (f : A → B) :
    cellsList shape (fun p => f (g p)) = (cellsList shape g).map f := by
  simp [cellsList, List.map_flatMap, List.map_map, Function.comp_def]

/-- A fold by `max` commutes with a `max`-preserving map. -/
theorem foldl_max_map (f : ℝ → ℝ)
    (hf : ∀ a b : ℝ, f (max a b) = max (f a) (f b)) :
    ∀ (l : List ℝ) (a : ℝ), (l.map f).foldl max (f a) = f (l.foldl max a) := by
  intro l
  induction l with
  | nil => intro a; rfl
  | cons b t ih =>
      intro a
      rw [List.map_cons, List.foldl_cons, List.foldl_cons, ← hf a b, ih]

/-- The Python `max` commutes with a `max`-preserving map of a non-empty
list. -/
theorem listMaxR_map (f : ℝ → ℝ)
    (hf : ∀ a b : ℝ, f (max a b) = max (f a) (f b)) (l : List ℝ)
    (h : l ≠ []) : listMaxR (l.map f) = f (listMaxR l) := by
  cases l with
  | nil => exact absurd rfl h
  | cons a t =>
      rw [List.map_cons, listMaxR, listMaxR]
      exact foldl_max_map f hf t a

/-- C3: whenever the accumulated grid is not entirely zero, `compute_CoDe`
succeeds, every cell of the normalised density grid is non-negative, and
the maximal cell equals exactly 100. -/
theorem compute_CoDe_normalized (st : DensityState) (vd ss hard : ℚ)
    (h : ∃ p, inShape (shapeOf st vd ss) p ∧ boxAcc st vd ss hard p ≠ 0) :
    ∃ out, compute_CoDe st vd ss hard = some out ∧
      out.shape = shapeOf st vd ss ∧
      (∀ p, inShape out.shape p → 0 ≤ out.grid p) ∧
      listMaxR (cellsList out.shape out.grid) = 100 := by
  obtain ⟨p0, hp0, hnz⟩ := h
  have hnonneg : ∀ p, 0 ≤ boxAcc st vd ss hard p := boxAcc_nonneg st vd ss hard
  have hpos : 0 < boxAcc st vd ss hard p0 :=
    lt_of_le_of_ne (hnonneg p0) (Ne.symm hnz)
  have hmem : boxAcc st vd ss hard p0 ∈
      cellsList (shapeOf st vd ss) (boxAcc st vd ss hard) :=
    mem_cellsList _ _ p0 hp0
  have hcne : cellsList (shapeOf st vd ss) (boxAcc st vd ss hard) ≠ [] :=
    List.ne_nil_of_mem hmem
  have hM0 : 0 <
      listMaxR (cellsList (shapeOf st vd ss) (boxAcc st vd ss hard)) :=
    lt_of_lt_of_le hpos (le_listMaxR _ _ hmem)
  have hane : atomsOf st ≠ [] := by
    intro hae
    exact hnz (boxAcc_of_empty st vd ss hard p0 hae)
  refine ⟨⟨shapeOf st vd ss, fun p =>
      100 * boxAcc st vd ss hard p /
        listMaxR (cellsList (shapeOf st vd ss) (boxAcc st vd ss hard))⟩,
    ?_, rfl, ?_, ?_⟩
  · simp only [compute_CoDe]
    rw [if_neg hane, if_neg hcne]
  · intro p hp
    apply div_nonneg
    · exact mul_nonneg (by norm_num) (hnonneg p)
    · exact le_of_lt hM0
  · have hf : ∀ a b : ℝ,
        100 * max a b /
            listMaxR (cellsList (shapeOf st vd ss) (boxAcc st vd ss hard)) =
          max (100 * a /
              listMaxR (cellsList (shapeOf st vd ss) (boxAcc st vd ss hard)))
            (100 * b /
              listMaxR (cellsList (shapeOf st vd ss) (boxAcc st vd ss hard))) := by
      intro a b
      rw [max_div_div_right (le_of_lt hM0), mul_max_of_nonneg a b
        (by norm_num : (0 : ℝ) ≤ 100)]
    rw [cellsList_map (shapeOf st vd ss) (boxAcc st vd ss hard)
        (fun c => 100 * c /
          listMaxR (cellsList (shapeOf st vd ss) (boxAcc st vd ss hard))),
      listMaxR_map _ hf _ hcne, mul_div_assoc,
      div_self (ne_of_gt hM0), mul_one]

/-- Rounding the rational 2 gives 2. -/
theorem pyround_two : pyround (2 : ℚ) = 2 := by
  have hnum : (2 : ℚ).num = 2 := by norm_num
  have hden : (2 : ℚ).den = 1 := by norm_num
  have hfd : (2 : ℤ).fdiv ((1 : ℕ) : ℤ) = 2 := by decide
  rw [pyround]
  simp only [hnum, hden, hfd]
  norm_num

/-- The ceiling of the rational 0 is 0. -/
theorem qceil_zero : qceil (0 : ℚ) = 0 := by
  have hnum : (-(0 : ℚ)).num = 0 := by norm_num
  have hden : (-(0 : ℚ)).den = 1 := by norm_num
  have hfd : (0 : ℤ).fdiv ((1 : ℕ) : ℤ) = 0 := by decide
  rw [qceil]
  simp only [hnum, hden, hfd]
  norm_num

/-- With voxel size 1 and stamp size 2 the stamp is 2 voxels long. -/
theorem stampLen_12 : stampLen 1 2 = 2 := by
  rw [stampLen]
  norm_num [pyround_two]
  rfl

/-- An ensemble of one conformer with one atom at the origin, relative
energy 0, temperature 1. -/
def stW : DensityState := ⟨[[(0, 0, 0)]], [0], 1⟩

/-- The same geometry with relative energy 10 — at the cutoff, so the
conformer contributes nothing and the accumulated grid is all zeros. -/
def stZ : DensityState := ⟨[[(0, 0, 0)]], [10], 1⟩

/-- The box shape only reads the flattened atom list. -/
theorem shapeOf_congr (st1 st2 : DensityState) (vd ss : ℚ)
    (h : atomsOf st1 = atomsOf st2) : shapeOf st1 vd ss = shapeOf st2 vd ss := by
  simp only [shapeOf, h]

/-- The single-atom box is 4 voxels on each side. -/
theorem shapeOf_stW : shapeOf stW 1 2 = (4, 4, 4) := by
  have hatoms : atomsOf stW = [((0 : ℚ), 0, 0)] := rfl
  simp only [shapeOf, hatoms, outlineOf, stampLen_12]
  norm_num [listMinD, listMaxD, qceil_zero]

/-- The single stamped cell `(2,2,2)` of the low-energy single-atom state
carries one stamp value times one Boltzmann weight. -/
theorem boxAcc_stW :
    boxAcc stW 1 2 5 (2, 2, 2) = stampVal 1 2 5 0 0 0 * weightOf 0 1 := by
  have hatoms : atomsOf stW = [((0 : ℚ), 0, 0)] := rfl
  have hrange : List.range stW.atomcoords.length = [0] := rfl
  have haget : stW.atomcoords.getD 0 [] = [((0 : ℚ), 0, 0)] := rfl
  have heget : stW.energies.getD 0 0 = (0 : ℚ) := rfl
  have hpos : posIdx 1 (outlineOf 1 2) (listMinD [(0 : ℚ)]) 0 = 2 := by
    rw [posIdx, outlineOf, stampLen_12]
    norm_num [listMinD]
    exact pyround_two
  have hT : stW.T = 1 := rfl
  simp only [boxAcc, hatoms, stampLen_12]
  simp only [hrange, List.map_cons, List.map_nil, haget, heget, hT]
  norm_num [hpos]

/-- Witness for C3: the single-atom state has a non-zero accumulated cell,
so the normalised grid exists, is non-negative, and peaks at exactly 100. -/
theorem compute_CoDe_normalized_witness :
    ∃ out, compute_CoDe stW 1 2 5 = some out ∧
      out.shape = shapeOf stW 1 2 ∧
      (∀ p, inShape out.shape p → 0 ≤ out.grid p) ∧
      listMaxR (cellsList out.shape out.grid) = 100 :=
  compute_CoDe_normalized stW 1 2 5
    ⟨(2, 2, 2),
      by rw [shapeOf_stW]; exact ⟨by norm_num, by norm_num, by norm_num⟩,
      by
        rw [boxAcc_stW]
        exact ne_of_gt (mul_pos (Real.exp_pos _) (Real.exp_pos _))⟩

/-- C5 amended: an EMPTY ensemble is surfaced as an error — `min()` over the
empty coordinate sequence raises before normalisation ever runs. -/
theorem compute_CoDe_empty_ensemble (st : DensityState) (vd ss hard : ℚ)
    (h : atomsOf st = []) : compute_CoDe st vd ss hard = none := by
  simp only [compute_CoDe]
  rw [if_pos h]

/-- Witness for C5's amended claim: the ensemble with no conformers. -/
theorem compute_CoDe_empty_ensemble_witness :
    compute_CoDe ⟨[], [], 1⟩ 1 2 5 = none :=
  compute_CoDe_empty_ensemble ⟨[], [], 1⟩ 1 2 5 rfl

/-- Helper: a fold by `max` over zeros from a zero seed stays zero. -/
theorem foldl_max_zero :
    ∀ (l : List ℝ) (a : ℝ), (∀ x ∈ l, x = 0) → a = 0 → l.foldl max a = 0 := by
  intro l
  induction l with
  | nil => intro a _ ha; exact ha
  | cons b t ih =>
      intro a h ha
      rw [List.foldl_cons]
      apply ih
      · intro x hx; exact h x (List.mem_cons_of_mem b hx)
      · rw [ha, h b (List.mem_cons_self b t)]
        exact max_self 0

/-- Helper: the Python `max` of an all-zero list is zero. -/
theorem listMaxR_of_all_zero (l : List ℝ) (h : ∀ x ∈ l, x = 0) :
    listMaxR l = 0 := by
  cases l with
  | nil => rfl
  | cons a t =>
      rw [listMaxR]
      exact foldl_max_zero t a (fun x hx => h x (List.mem_cons_of_mem a hx))
        (h a (List.mem_cons_self a t))

/-- Helper: every member of the flattened cell list is a cell value. -/
theorem cellsList_mem_exists {A : Type} (shape : ℕ × ℕ × ℕ)
    (g : ℕ × ℕ × ℕ → A) : ∀ x ∈ cellsList shape g, ∃ p, x = g p := by
  intro x hx
  obtain ⟨a, _, hx⟩ := List.mem_flatMap.mp hx
  obtain ⟨b, _, hx⟩ := List.mem_flatMap.mp hx
  obtain ⟨c, _, hx⟩ := List.mem_map.mp hx
  exact ⟨(a, b, c), hx.symm⟩

/-- C5 counterexample: a non-empty ensemble whose single conformer sits at
the 10 kcal/mol cutoff accumulates an all-zero grid (its maximal cell is
0), yet `compute_CoDe` does NOT signal invalid input — it runs the
normalisation (a division by the zero maximum) and returns a grid. -/
theorem compute_CoDe_zero_grid_counterexample :
    listMaxR (cellsList (shapeOf stZ 1 2) (boxAcc stZ 1 2 5)) = 0 ∧
      (compute_CoDe stZ 1 2 5).isSome = true := by
  have hzero : ∀ p, boxAcc stZ 1 2 5 p = 0 := by
    intro p
    have hrange : List.range stZ.atomcoords.length = [0] := rfl
    have heget : stZ.energies.getD 0 0 = (10 : ℚ) := rfl
    simp only [boxAcc, hrange, List.map_cons, List.map_nil, heget]
    norm_num
  refine ⟨?_, ?_⟩
  · apply listMaxR_of_all_zero
    intro x hx
    obtain ⟨p, rfl⟩ := cellsList_mem_exists _ _ x hx
    exact hzero p
  have hane : atomsOf stZ ≠ [] := by
    intro h; cases h
  have hsh : shapeOf stZ 1 2 = (4, 4, 4) := by
    rw [shapeOf_congr stZ stW 1 2 rfl]
    exact shapeOf_stW
  have hmem : boxAcc stZ 1 2 5 (0, 0, 0) ∈
      cellsList (shapeOf stZ 1 2) (boxAcc stZ 1 2 5) := by
    apply mem_cellsList
    rw [hsh]
    exact ⟨by norm_num, by norm_num, by norm_num⟩
  have hcne : cellsList (shapeOf stZ 1 2) (boxAcc stZ 1 2 5) ≠ [] :=
    List.ne_nil_of_mem hmem
  simp only [compute_CoDe]
  rw [if_neg hane, if_neg hcne]
  rfl

/-- A token of the cube-file body: a formatted scalar value or a newline. -/
inductive CubeTok (A : Type) : Type
  | val (a : A) : CubeTok A
  | nl : CubeTok A

/-- The index triples of the body loop of `write_cubefile`: x outer, y
middle, z inner. -/
def cubeIdx (shape : ℕ × ℕ × ℕ) : List (ℕ × ℕ × ℕ) :=
(List.range shape.1).flatMap (fun x =>
  (List.range shape.2.1).flatMap (fun y =>
    (List.range shape.2.2).map (fun z => (x, y, z))))

/-- The body loop of `write_cubefile`: appends each cell's value, bumps the
running counter, and appends a newline whenever the bumped counter satisfies
`count % 6 == 5`; one final newline after the loop. -/
def cubeScan {A : Type} (box : ℕ → ℕ → ℕ → A) :
    List (ℕ × ℕ × ℕ) → ℕ → List (CubeTok A)
  | [], _ => [CubeTok.nl]
  | t :: ts, count =>
      CubeTok.val (box t.1 t.2.1 t.2.2) ::
        (if (count + 1) % 6 = 5 then
          CubeTok.nl :: cubeScan box ts (count + 1)
        else cubeScan box ts (count + 1))

/-- The token stream `print_list` of `write_cubefile`. -/
def write_cubefile_body {A : Type} (shape : ℕ × ℕ × ℕ)
    (box : ℕ → ℕ → ℕ → A) : List (CubeTok A) :=
cubeScan box (cubeIdx shape) 0

/-- The scalar values of a token stream, in emission order. -/
def valuesOf {A : Type} : List (CubeTok A) → List A
  | [] => []
  | CubeTok.val a :: t => a :: valuesOf t
  | CubeTok.nl :: t => valuesOf t

/-- The number of values on each newline-separated line of a token
stream. -/
def lineLens {A : Type} : List (CubeTok A) → List ℕ
  | [] => [0]
  | CubeTok.val _ :: t =>
      match lineLens t with
      | [] => [1]
      | h :: r => (h + 1) :: r
  | CubeTok.nl :: t => 0 :: lineLens t

/-- The scalar field flattened in row-major order, last axis fastest. -/
def rowMajor {A : Type} (shape : ℕ × ℕ × ℕ) (box : ℕ → ℕ → ℕ → A) :
    List A :=
(cubeIdx shape).map (fun t => box t.1 t.2.1 t.2.2)

/-- The scan emits exactly the visited values, in order. -/
theorem valuesOf_cubeScan {A : Type} (box : ℕ → ℕ → ℕ → A) :
    ∀ (ts : List (ℕ × ℕ × ℕ)) (c : ℕ),
      valuesOf (cubeScan box ts c) = ts.map (fun t => box t.1 t.2.1 t.2.2) := by
  intro ts
  induction ts with
  | nil => intro c; rfl
  | cons t ts ih =>
      intro c
      rw [cubeScan]
      by_cases h6 : (c + 1) % 6 = 5
      · rw [if_pos h6, List.map_cons]
        show valuesOf (CubeTok.val (box t.1 t.2.1 t.2.2) :: CubeTok.nl ::
          cubeScan box ts (c + 1)) = _
        rw [valuesOf, valuesOf, ih (c + 1)]
      · rw [if_neg h6, List.map_cons]
        rw [valuesOf, ih (c + 1)]

/-- C9: the body of `write_cubefile` serialises the field in row-major
order with the last axis fastest — but the newline test `count % 6 == 5`
fires after the 5th, 11th, 17th, … value, so the FIRST body line carries
five values (later full lines six), contradicting the six-per-line format:
on a `1×1×7` grid the line lengths are 5, 2 and an empty trailing line. -/
theorem write_cubefile_layout :
    (∀ (A : Type) (shape : ℕ × ℕ × ℕ) (box : ℕ → ℕ → ℕ → A),
        valuesOf (write_cubefile_body shape box) = rowMajor shape box) ∧
      lineLens (write_cubefile_body (1, 1, 7) (fun _ _ z => z)) = [5, 2, 0] := by
  constructor
  · intro A shape box
    rw [write_cubefile_body, rowMajor]
    exact valuesOf_cubeScan box (cubeIdx shape) 0
  · decide

end TSCoDe
